import Mathlib

/-!
Verification development for the ParrotNLP word-tokenization core.

The Rust sources are shallowly embedded:
* `CRFModel`, `extract_features`, `score_sequence`, `viterbi_decode`,
  `CRFModel.predictE`, `CRFModel.load` embed
  `src/word_tokenize/word_tokenize.rs` (the CRF sequence tagger).
  Float weights (`f64`) are modelled as exact rationals `ℚ`; `HashMap`
  lookups are modelled by association lists (`List.lookup`, insertion
  prepends, so later insertions shadow earlier keys exactly as
  `HashMap::insert` overwrites).
* `mergeTokensByTags` and `word_tokenize_from_tokens` embed the merge
  loop of `VietnameseWordSegmenter::word_tokenize_with_options`.
* `rustReplace`, `character_normalize`, `normalize_characters_in_text`,
  `token_normalize` embed `src/text_normalize/character_normalize.rs`
  and `src/text_normalize/token_normalize.rs`.
* `RE`, `mrun`, `scanText`, `vnTokenize` embed the combined regex of
  `build_regex_patterns` together with the leftmost-first scan of
  `Regex::captures_iter` used by `VietnameseTokenizer::tokenize_with_tags`.
-/

namespace ParrotNLP

/-- The two CRF labels.  The source fixes
`labels: vec!["B-W".to_string(), "I-W".to_string()]` in `CRFModel::new`,
and nothing ever mutates the `labels` field, so every reachable model
carries exactly these two labels in this order (`bw` has index 0,
`iw` index 1). -/
inductive Lab where
  | bw
  | iw
deriving DecidableEq, Repr

/-- Rendering of a label index back to its string, as in
`self.labels[i].clone()` (line 316 of word_tokenize.rs). -/
def Lab.str : Lab → String
  | .bw => "B-W"
  | .iw => "I-W"

/-- Sparse weight table: embeds `weights: HashMap<String, f64>`, with
`f64` weights modelled as exact rationals. -/
abbrev Weights := List (String × ℚ)

/-- Embeds `struct CRFModel` (word_tokenize.rs lines 160-167). -/
structure CRFModel where
  weights : Weights
  labels : List String
  feature_templates : List String
  loaded : Bool

/-- Embeds `CRFModel::new` (lines 170-177). -/
def CRFModel.new : CRFModel :=
  { weights := [], labels := ["B-W", "I-W"], feature_templates := [], loaded := false }

/-- Rust `format!("{}", b)` for a `bool`. -/
def boolStr (b : Bool) : String :=
  if b then "true" else "false"

/-- Embeds `CRFModel::extract_features` (lines 179-219).  `tokens[position]`
is total in the source only for `position < tokens.len()`; all call sites
guarantee this, and the embedding uses `getD` with a default that is never
reached on those call sites.  `current_token.len()` is the Rust byte
length, embedded as `String.utf8ByteSize`.  Rust `char::is_uppercase` is
Unicode; it is embedded by `Char.isUpper`, which agrees on the ASCII
repertoire used by the weight keys. -/
def extract_features (tokens : List String) (position : Nat) : List String :=
  let current_token := tokens.getD position ""
  let base :=
    [ "token=" ++ current_token,
      "length=" ++ toString current_token.utf8ByteSize,
      "is_upper=" ++ boolStr (current_token.data.all Char.isUpper),
      "is_digit=" ++ boolStr (current_token.data.all Char.isDigit) ]
  let firstc := match current_token.data.head? with
    | some c => ["first_char=" ++ String.mk [c]]
    | none => []
  let lastc := match current_token.data.getLast? with
    | some c => ["last_char=" ++ String.mk [c]]
    | none => []
  let prevTok :=
    if position > 0 then ["prev_token=" ++ tokens.getD (position - 1) ""]
    else ["prev_token=<BOS>"]
  let nextTok :=
    if position < tokens.length - 1 then ["next_token=" ++ tokens.getD (position + 1) ""]
    else ["next_token=<EOS>"]
  let bigram1 :=
    if position > 0 then
      ["prev_current=" ++ tokens.getD (position - 1) "" ++ "_" ++ current_token]
    else []
  let bigram2 :=
    if position < tokens.length - 1 then
      ["current_next=" ++ current_token ++ "_" ++ tokens.getD (position + 1) ""]
    else []
  base ++ firstc ++ lastc ++ prevTok ++ nextTok ++ bigram1 ++ bigram2

/-- Sum, over the extracted features of position `i`, of the weights of the
keys `feature#tag`; an absent key contributes nothing.  This is the inner
loop shared verbatim by `score_sequence` (lines 225-231) and
`viterbi_decode` (lines 260-267 and 276-282). -/
def emissionScore (w : Weights) (tokens : List String) (i : Nat) (tag : String) : ℚ :=
  (extract_features tokens i).foldl
    (fun acc feature =>
      match w.lookup (feature ++ "#" ++ tag) with
      | some weight => acc + weight
      | none => acc) 0

/-- Transition weight `weight(prev_tag#tag)`, defaulting to `0` when the key
is absent: `self.weights.get(&transition).unwrap_or(&0.0)` (line 286); the
`if let` in `score_sequence` (lines 236-239) adds nothing for an absent
key, which is the same. -/
def transitionScore (w : Weights) (prev_tag tag : String) : ℚ :=
  (w.lookup (prev_tag ++ "#" ++ tag)).getD 0

/-- Inner loop of `score_sequence`: position `i`, previously seen tag. -/
def scoreSeqGo (w : Weights) (tokens : List String) : Nat → Option String → List String → ℚ
  | _, _, [] => 0
  | i, prev, tag :: rest =>
      emissionScore w tokens i tag +
        (match prev with
         | some p => transitionScore w p tag
         | none => 0) +
        scoreSeqGo w tokens (i + 1) (some tag) rest

/-- Embeds `CRFModel::score_sequence` (lines 221-244): total score of a tag
sequence, i.e. per-position emission weights plus transition weights
between consecutive tags, absent keys counting as 0. -/
def score_sequence (w : Weights) (tokens tags : List String) : ℚ :=
  scoreSeqGo w tokens 0 none tags

/-- Emission score with a `Lab` label. -/
def emL (w : Weights) (tokens : List String) (i : Nat) (l : Lab) : ℚ :=
  emissionScore w tokens i l.str

/-- Transition score with `Lab` labels. -/
def trL (w : Weights) (a b : Lab) : ℚ :=
  transitionScore w a.str b.str

/-- The Viterbi DP table `dp[i][l]` (lines 254-296).  For `i = 0` it is the
emission score of position 0 (lines 259-269).  For `i+1` the source
initializes `dp[i+1][l] = NEG_INFINITY` and then, for `k = 0` (label
`bw`) and `k = 1` (label `iw`) in that order, computes
`total = dp[i][k] + transition(k,l) + emission(i+1,l)` and installs it
whenever it is strictly greater than the current cell (lines 284-294).
Since every weight is finite, the `k = 0` candidate always replaces
`NEG_INFINITY`, and the `k = 1` candidate wins only if strictly greater:
exactly `if tI > tB then tI else tB`. -/
def dpv (em : Nat → Lab → ℚ) (tr : Lab → Lab → ℚ) : Nat → Lab → ℚ
  | 0, l => em 0 l
  | i + 1, l =>
      let tB := dpv em tr i .bw + tr .bw l + em (i + 1) l
      let tI := dpv em tr i .iw + tr .iw l + em (i + 1) l
      if tI > tB then tI else tB

/-- The backpointer `backtrack[i+1][l]` (line 292): the `prev_l` whose
candidate was installed last, i.e. `iw` exactly when its candidate is
strictly greater than the `bw` candidate (first label wins ties). -/
def bpv (em : Nat → Lab → ℚ) (tr : Lab → Lab → ℚ) : Nat → Lab → Lab
  | 0, _ => .bw
  | i + 1, l =>
      let tB := dpv em tr i .bw + tr .bw l + em (i + 1) l
      let tI := dpv em tr i .iw + tr .iw l + em (i + 1) l
      if tI > tB then .iw else .bw

/-- The label sequence reconstructed by the backtracking loop (lines
308-314), in reverse order: `revPathv i l` is
`[result[i] = l, result[i-1], ..., result[0]]` where
`result[j-1] = backtrack[j][result[j]]`. -/
def revPathv (em : Nat → Lab → ℚ) (tr : Lab → Lab → ℚ) : Nat → Lab → List Lab
  | 0, l => [l]
  | i + 1, l => l :: revPathv em tr i (bpv em tr (i + 1) l)

/-- The final argmax (lines 298-306): start from label index 0 and replace
only on a strictly greater score, so the first label wins ties. -/
def bestFinal (em : Nat → Lab → ℚ) (tr : Lab → Lab → ℚ) (last : Nat) : Lab :=
  if dpv em tr last .iw > dpv em tr last .bw then .iw else .bw

/-- Embeds `CRFModel::viterbi_decode` (lines 246-317).  Empty input returns
the empty sequence (lines 247-249).  Otherwise the final state is
`argmax_l dp[n-1][l]` with the first label winning ties, and the output
is the backtracked sequence rendered through `labels` (line 316). -/
def viterbi_decode (w : Weights) (tokens : List String) : List String :=
  match tokens with
  | [] => []
  | _ :: _ =>
      let em := emL w tokens
      let tr := trL w
      let n := tokens.length
      ((revPathv em tr (n - 1) (bestFinal em tr (n - 1))).reverse).map Lab.str

/-- Total score of a label path continued from position `i` with previous
label `prev`: transition into each label plus its emission.  This is the
`Lab`-typed counterpart of `scoreSeqGo`, used to state Viterbi
optimality. -/
def labGo (em : Nat → Lab → ℚ) (tr : Lab → Lab → ℚ) : Nat → Lab → List Lab → ℚ
  | _, _, [] => 0
  | i, prev, l :: rest => em i l + tr prev l + labGo em tr (i + 1) l rest

/-- Total score of a label path starting at position 0: emission of the
first label, then `labGo`. -/
def labScore (em : Nat → Lab → ℚ) (tr : Lab → Lab → ℚ) : List Lab → ℚ
  | [] => 0
  | l :: rest => em 0 l + labGo em tr 1 l rest

/-- `features.iter().map(|f| f[0].clone()).collect()` (line 355): take the
first entry of every feature row; indexing an empty row is an
out-of-bounds panic, modelled as an error at the leftmost empty row. -/
def firstFeatures : List (List String) → Except String (List String)
  | [] => .ok []
  | [] :: _ => .error "index out of bounds"
  | (t :: _) :: rest =>
      match firstFeatures rest with
      | .error e => .error e
      | .ok ts => .ok (t :: ts)

/-- Embeds `<CRFModel as SequenceTagger>::predict` (lines 346-357) as a
fallible function: the `panic!("Model not loaded. Call load() first.")`
on an unloaded model and the out-of-bounds `f[0]` on an empty feature row
are modelled as `Except.error` with the corresponding panic message. -/
def CRFModel.predictE (m : CRFModel) (features : List (List String)) :
    Except String (List String) :=
  if m.loaded = false then
    .error "Model not loaded. Call load() first."
  else if features.isEmpty then
    .ok []
  else
    match firstFeatures features with
    | .error e => .error e
    | .ok tokens => .ok (viterbi_decode m.weights tokens)

/-- The built-in default weight table inserted by `load` (lines 331-340),
with the decimal `f64` literals read as exact rationals. -/
def defaultWeights : Weights :=
  [ ("token=Bác#B-W", 2),
    ("token=sĩ#I-W", 3/2),
    ("token=bây#B-W", 9/5),
    ("token=giờ#I-W", 13/10),
    ("token=có#B-W", 19/10),
    ("token=thể#I-W", 7/5),
    ("B-W#I-W", 1),
    ("I-W#B-W", 1/2),
    ("B-W#B-W", 3/10),
    ("I-W#I-W", 4/5) ]

/-- Embeds `<CRFModel as SequenceTagger>::load` (lines 321-344).  The
`model_path.exists()` test only selects whether a warning is logged
(lines 325-327); it is passed in as a bare `Bool`.  The ten
`weights.insert` calls are prepends that shadow any previous binding,
then `loaded` is set and `Ok(())` is returned — the function has no
failure path. -/
def CRFModel.load (m : CRFModel) (path_exists : Bool) :
    CRFModel × Except String Unit :=
  let _warning_logged := path_exists = false
  let m' : CRFModel :=
    { m with
      weights := defaultWeights.foldl (fun acc kv => kv :: acc) m.weights,
      loaded := true }
  (m', .ok ())

/-- Append a token to the last word of the accumulator:
`*last_word = format!("{} {}", last_word, token)` (line 483). -/
def appendToLast (output : List String) (token : String) : List String :=
  output.dropLast ++ [output.getLastD "" ++ " " ++ token]

/-- The merge loop of `word_tokenize_with_options` (lines 478-489) over the
zipped `(tag, token)` pairs: a token tagged `"I-W"` with a non-empty
accumulator extends the last word, every other token starts a new word. -/
def mergeGo : List (String × String) → List String → List String
  | [], output => output
  | (tag, token) :: rest, output =>
      if tag = "I-W" ∧ output ≠ [] then
        mergeGo rest (appendToLast output token)
      else
        mergeGo rest (output ++ [token])

/-- The merge step of `word_tokenize_with_options`:
`for (tag, token) in tags.iter().zip(tokens.iter())` (line 479). -/
def mergeTokensByTags (tags tokens : List String) : List String :=
  mergeGo (tags.zip tokens) []

/-- Rust `word.replace(' ', "_")` (line 493): the pattern is the single
space character, so this is a character-wise map. -/
def spaceToUnderscore (word : String) : String :=
  String.mk (word.data.map (fun c => if c = ' ' then '_' else c))

/-- Space-join of a word group; `String.intercalate` specialised for the
statements below. -/
def joinSp : List String → String
  | [] => ""
  | [x] => x
  | x :: y :: rest => x ++ " " ++ joinSp (y :: rest)

/-- The post-tokenization pipeline of
`VietnameseWordSegmenter::word_tokenize_with_options` (lines 444-499),
parametric in the already-computed token list: build the singleton
feature rows `vec![token.clone()]` (lines 464-466), run the tagger of the
(loaded) global model (lines 469-475), merge by tags, and optionally
render everything as one underscore/space-joined string (lines 491-498).
The tokenizer front-end is embedded separately (`vnTokenize`). -/
def word_tokenize_from_tokens (m : CRFModel) (format_as_text : Bool)
    (tokens : List String) : Except String (List String) :=
  match m.predictE (tokens.map (fun token => [token])) with
  | .error e => .error e
  | .ok tags =>
      let output := mergeTokensByTags tags tokens
      if format_as_text then
        .ok [joinSp (output.map spaceToUnderscore)]
      else
        .ok output

/-- Embeds Rust `str::replace` (used by `character_normalize` and the
fixed-words escaping), on character lists: replace all leftmost,
non-overlapping occurrences of `k` by `v`.  `n` counts characters of a
just-matched occurrence that remain to be skipped. -/
def replGo (k v : List Char) : List Char → Nat → List Char
  | [], _ => []
  | _ :: rest, n + 1 => replGo k v rest n
  | c :: rest, 0 =>
      if k.isPrefixOf (c :: rest) then v ++ replGo k v rest (k.length - 1)
      else c :: replGo k v rest 0

/-- Rust `s.replace(k, v)`.  An empty pattern matches at every character
boundary including both ends, as in Rust. -/
def rustReplace (s k v : List Char) : List Char :=
  if k = [] then v ++ s.flatMap (fun c => c :: v) else replGo k v s 0

/-- Embeds `character_normalize` (character_normalize.rs lines 5-14): fold
the `character_map` entries over the text with `str::replace`.  The rule
table comes from the embedded `tn_rules.json`, which is not part of the
sources; the map is therefore a parameter, and the unordered `HashMap`
iteration is modelled by the list order. -/
def character_normalize (cmap : List (String × String)) (text : String) : String :=
  String.mk (cmap.foldl (fun r kv => rustReplace r kv.1.data kv.2.data) text.data)

/-- Embeds `normalize_characters_in_text` (character_normalize.rs lines
21-25).  `utf8_normalize` is `text.nfc().collect()` from the external
`unicode_normalization` crate; Unicode NFC is out of scope for the core
(spec section 1) and is a parameter `nfc` here. -/
def normalize_characters_in_text (nfc : String → String)
    (cmap : List (String × String)) (text : String) : String :=
  character_normalize cmap (nfc text)

/-- Embeds `token_normalize` (token_normalize.rs lines 14-34).  Modelled
from the spec: the `token_map`/`character_map` tables of the global
normalizer come from the embedded `tn_rules.json`, absent from the
sources, so both maps and the NFC pass are parameters.  `token.len()` in
the source is the Rust *byte* length, embedded as `utf8ByteSize`. -/
def token_normalize (nfc : String → String)
    (cmap tmap : List (String × String))
    (token : String) (use_character_normalize : Bool) : String :=
  if token.utf8ByteSize > 6 then token
  else
    let normalized_token :=
      if use_character_normalize then normalize_characters_in_text nfc cmap token
      else token
    match tmap.lookup normalized_token with
    | some mapped_token => mapped_token
    | none => normalized_token

/-- The fixed-words escaping of `build_regex_patterns` (line 621):
`word.replace(" ", r"\ ")` — only spaces are escaped, every other
character passes through verbatim. -/
def escapeFixedWord (word : String) : String :=
  String.mk (rustReplace word.data [' '] ['\\', ' '])

/-- The fixed-words sub-pattern of `build_regex_patterns` (lines 618-624):
`format!(r"(?P<fixed_words>\b{}\b)", escaped_words.join(r"\b|\b"))`. -/
def fixedWordsPatternString (fixed_words : List String) : String :=
  "(?P<fixed_words>\\b" ++
    String.intercalate "\\b|\\b" (fixed_words.map escapeFixedWord) ++ "\\b)"

/-- Modelled from the spec: a matcher pattern whose parentheses do not
balance cannot compile, so `Regex::new(...).expect(...)` (line 645) is a
fatal panic on it.  `parenDepth` tracks the nesting depth left to right,
skipping escaped characters; `none` records a closing parenthesis with no
matching opener. -/
def parenDepth : List Char → Nat → Option Nat
  | [], d => some d
  | '\\' :: _ :: rest, d => parenDepth rest d
  | '\\' :: [], d => some d
  | '(' :: rest, d => parenDepth rest (d + 1)
  | ')' :: rest, d =>
      match d with
      | 0 => none
      | d' + 1 => parenDepth rest d'
  | _ :: rest, d => parenDepth rest d

/-- A pattern is parenthesis-balanced when the depth returns to zero. -/
def parenBalanced (pattern : String) : Bool :=
  parenDepth pattern.data 0 = some 0

/-! ### A small regex interpreter

`build_regex_patterns` (word_tokenize.rs lines 512-646) concatenates the
per-category sub-patterns into one alternation compiled by the `regex`
crate, whose `Regex` has leftmost-first (preference-order) match
semantics: the match starting earliest wins, and at a given start the
first alternation branch, with greedy/lazy repetition preferring
more/fewer iterations.  The interpreter below implements exactly these
semantics: `mrun` lists the possible continuations of a pattern in
preference order, and the scanner takes the head.  The sub-patterns are
transcribed one by one into the `RE` syntax further down. -/

/-- Regex syntax: character classes are predicates, `star true` is greedy
`*`, `star false` is lazy `*?`, `wb` is the word boundary `\b`, `eos` is
`$`. -/
inductive RE where
  | eps
  | cls (p : Char → Bool)
  | seq (a b : RE)
  | alt (a b : RE)
  | star (greedy : Bool) (a : RE)
  | wb
  | eos

/-- Literal character. -/
def reChr (c : Char) : RE := .cls (fun x => x == c)

/-- Literal string. -/
def reStr (s : String) : RE := s.data.foldr (fun c r => RE.seq (reChr c) r) .eps

/-- Alternation of a list of branches, in preference order. -/
def altList : List RE → RE
  | [] => .cls (fun _ => false)
  | [r] => r
  | r :: s :: rest => .alt r (altList (s :: rest))

/-- Concatenation of a list of patterns. -/
def seqList : List RE → RE
  | [] => .eps
  | r :: rest => .seq r (seqList rest)

/-- Greedy `r*`. -/
def starG (r : RE) : RE := .star true r

/-- Lazy `r*?`. -/
def starL (r : RE) : RE := .star false r

/-- Greedy `r+`. -/
def plusG (r : RE) : RE := .seq r (starG r)

/-- Lazy `r+?`. -/
def plusL (r : RE) : RE := .seq r (starL r)

/-- Greedy `r?`. -/
def optG (r : RE) : RE := .alt r .eps

/-- `r` repeated exactly `n` times. -/
def repN : Nat → RE → RE
  | 0, _ => .eps
  | n + 1, r => .seq r (repN n r)

/-- `r{n,}`: at least `n` repetitions, greedy. -/
def repAtLeast (n : Nat) (r : RE) : RE := .seq (repN n r) (starG r)

/-- Up to `n` further repetitions, greedy. -/
def upToN : Nat → RE → RE
  | 0, _ => .eps
  | n + 1, r => .alt (.seq r (upToN n r)) .eps

/-- `r{n,m}`: between `n` and `m` repetitions, greedy. -/
def repRange (n m : Nat) (r : RE) : RE := .seq (repN n r) (upToN (m - n) r)

/-- Rust regex `\s` (Unicode `White_Space`), restricted to the ASCII
whitespace repertoire, which covers every character below. -/
def sChar (c : Char) : Bool :=
  c == ' ' || c == '\t' || c == '\n' || c == '\r' || c == '\x0b' || c == '\x0c'

/-- The extra Vietnamese uppercase letters of `upper_class()`
(word_tokenize.rs lines 43-45). -/
def vnUpperExtra : List Char :=
  "ÀÁẢÃẠĂẰẮẲẴẶÂẦẤẨẪẬĐÈÉẺẼẸÊỀẾỂỄỆÌÍỈĨỊÒÓỎÕỌÔỒỐỔỖỘƠỜỚỞỠỢÙÚỦŨỤƯỪỨỬỮỰỲÝỶỸỴ".data

/-- The extra Vietnamese lowercase letters of `lower_class()`. -/
def vnLowerExtra : List Char :=
  "àáảãạăằắẳẵặâầấẩẫậđèéẻẽẹêềếểễệìíỉĩịòóỏõọôồốổỗộơờớởỡợùúủũụưừứửữựỳýỷỹỵ".data

/-- The class `upper_class()`: `[A-Z…]` with the Vietnamese uppers. -/
def upperCls (c : Char) : Bool :=
  (decide ('A' ≤ c ∧ c ≤ 'Z')) || vnUpperExtra.contains c

/-- The class `lower_class()`. -/
def lowerCls (c : Char) : Bool :=
  (decide ('a' ≤ c ∧ c ≤ 'z')) || vnLowerExtra.contains c

/-- The class `word_class()`: union of the upper and lower classes. -/
def wordCls (c : Char) : Bool := upperCls c || lowerCls c

/-- Rust regex `\w` (Unicode word character), restricted to ASCII
alphanumerics, the underscore and the Vietnamese letter repertoire of
this program. -/
def wChar (c : Char) : Bool := c.isAlphanum || c == '_' || wordCls c

/-- The class `[A-ZĐ]`. -/
def upperAD (c : Char) : Bool := (decide ('A' ≤ c ∧ c ≤ 'Z')) || c == 'Đ'

/-- The class `[A-Z]`. -/
def azUpper (c : Char) : Bool := decide ('A' ≤ c ∧ c ≤ 'Z')

/-- The class `[a-z]`. -/
def azLower (c : Char) : Bool := decide ('a' ≤ c ∧ c ≤ 'z')

/-- The class `[a-z0-9]`. -/
def az09 (c : Char) : Bool := azLower c || c.isDigit

/-- The class `[a-z0-9%]`. -/
def az09pct (c : Char) : Bool := az09 c || c == '%'

/-- The class `[a-z0-9.\-]`. -/
def az09dotdash (c : Char) : Bool := az09 c || c == '.' || c == '-'

/-- The class `[a-zA-Z0-9_.+-]` (email local part). -/
def emailLocalCls (c : Char) : Bool :=
  c.isAlphanum || c == '_' || c == '.' || c == '+' || c == '-'

/-- The class `[a-zA-Z0-9-]` (email domain label). -/
def emailDomCls (c : Char) : Bool := c.isAlphanum || c == '-'

/-- The class `[a-zA-Z0-9-.]` (email domain tail). -/
def emailDom2Cls (c : Char) : Bool := c.isAlphanum || c == '-' || c == '.'

/-- The class `[\.,_]` (number grouping separators). -/
def dotCommaUnd (c : Char) : Bool := c == '.' || c == ',' || c == '_'

/-- The class `[^\s()<>{}\[\]]` (URL body characters). -/
def urlBodyCls (c : Char) : Bool :=
  !(sChar c) && !(['(', ')', '<', '>', '\x7b', '\x7d', '[', ']'].contains c)

/-- The class `[^\s()]`. -/
def noSpParen (c : Char) : Bool := !(sChar c) && c != '(' && c != ')'

/-- The class `[^\s]`. -/
def noSp (c : Char) : Bool := !(sChar c)

/-- The characters excluded by the final URL character class (backtick,
bang, brackets, braces, quotes, guillemets, sentence punctuation). -/
def urlTailExcluded : List Char :=
  [Char.ofNat 96, '!', '(', ')', '[', ']', '\x7b', '\x7d', ';', ':',
   Char.ofNat 39, '"', '.', ',', '<', '>', '?', '«', '»']

/-- The class `[^\s…]` closing the first URL alternative. -/
def urlTailCls (c : Char) : Bool := !(sChar c) && !(urlTailExcluded.contains c)

/-- The class `[^\w\s]` (NonWord fallback). -/
def nonWordCls (c : Char) : Bool := !(wChar c) && !(sChar c)

/-- The class `[\w+-]` inside the hyphenated-word pattern. -/
def wpmCls (c : Char) : Bool := wChar c || c == '+' || c == '-'

/-- `\d`. -/
def digitRE : RE := .cls Char.isDigit

/-- Word-boundary test for `\b`: previous and next character disagree on
being word characters (start/end of haystack counting as non-word). -/
def isWordCharOpt : Option Char → Bool
  | none => false
  | some c => wChar c

/-- The `\b` predicate at a position given the previous character and the
remaining input. -/
def wordBoundary (prev : Option Char) (s : List Char) : Bool :=
  isWordCharOpt prev != isWordCharOpt s.head?

/-- All continuations of matching `r` against `s` (with `prev` the
character before the current position, for `\b`), in preference order:
first alternation branch first, greedy stars longest first, lazy stars
shortest first.  `fuel` dominates the recursion depth; star iterations
that consume nothing are not repeated (the no-progress rule of the
`regex` crate).  The head of the returned list is the continuation the
`regex` crate commits to. -/
def mrun : Nat → RE → Option Char → List Char → List (Option Char × List Char)
  | 0, _, _, _ => []
  | _ + 1, .eps, prev, s => [(prev, s)]
  | _ + 1, .cls p, _, s =>
      match s with
      | [] => []
      | c :: rest => if p c then [(some c, rest)] else []
  | f + 1, .seq a b, prev, s =>
      (mrun f a prev s).flatMap (fun pr => mrun f b pr.1 pr.2)
  | f + 1, .alt a b, prev, s => mrun f a prev s ++ mrun f b prev s
  | f + 1, .star g a, prev, s =>
      let deeper := (mrun f a prev s).flatMap (fun pr =>
        if pr.2.length < s.length then mrun f (.star g a) pr.1 pr.2 else [])
      if g then deeper ++ [(prev, s)] else (prev, s) :: deeper
  | _ + 1, .wb, prev, s => if wordBoundary prev s then [(prev, s)] else []
  | _ + 1, .eos, prev, s => if s.isEmpty then [(prev, s)] else []

/-- Fuel that dominates every recursion depth `mrun` can reach on `s`. -/
def engineFuel (s : List Char) : Nat := 1000 + 300 * s.length

/-- Token categories (the named capture groups of the combined pattern),
embedding `enum TokenType` (word_tokenize.rs lines 58-75). -/
inductive TokType where
  | special
  | abbreviation
  | url
  | email
  | phone
  | dateTime
  | name
  | number
  | emoji
  | punct
  | wordHyphen
  | word
  | symbol
  | nonWord
  | fixedWords
deriving DecidableEq, Repr

/-- The `specials` alternatives (lines 517-529), in order: `=\>`, `==>`,
`->`, `\.{2,}`, `-{2,}`, `>>`, `\d+x\d+`, `v\.v\.\.\.`, `v\.v\.`,
`v\.v`, `°[CF]`. -/
def specialsRE : RE :=
  altList
    [ reStr "=>",
      reStr "==>",
      reStr "->",
      repAtLeast 2 (reChr '.'),
      repAtLeast 2 (reChr '-'),
      reStr ">>",
      seqList [plusG digitRE, reChr 'x', plusG digitRE],
      reStr "v.v...",
      reStr "v.v.",
      reStr "v.v",
      .seq (reChr '°') (.cls (fun c => c == 'C' || c == 'F')) ]

/-- The `abbreviations` alternatives (lines 538-550), in order:
`[A-ZĐ]+&[A-ZĐ]+`, `T\.Ư`, `U+(?:\.W+)+\.?` with `U` the upper class and
`W` the word class, `W+[\x27\x27]W+` (the class holds the ASCII
apostrophe twice), `[A-ZĐ]+\.`, the honorific dots, `e-mail`,
`\d+[A-Z]+\d*-\d+`, `NĐ-CP`. -/
def abbrevRE : RE :=
  altList
    [ seqList [plusG (.cls upperAD), reChr '&', plusG (.cls upperAD)],
      reStr "T.Ư",
      seqList [plusG (.cls upperCls),
               plusG (.seq (reChr '.') (plusG (.cls wordCls))),
               optG (reChr '.')],
      seqList [plusG (.cls wordCls), reChr (Char.ofNat 39), plusG (.cls wordCls)],
      .seq (plusG (.cls upperAD)) (reChr '.'),
      reStr "Tp.",
      reStr "Mr.",
      reStr "Mrs.",
      reStr "Ms.",
      reStr "Dr.",
      reStr "ThS.",
      reStr "Th.S",
      reStr "Th.s",
      reStr "e-mail",
      seqList [plusG digitRE, plusG (.cls azUpper), starG digitRE,
               reChr '-', plusG digitRE],
      reStr "NĐ-CP" ]

/-- The scheme head of the URL pattern (line 554):
`(?:(?:ftp|http)s?:(?:/{1,3}|[a-z0-9%])`. -/
def urlSchemeRE : RE :=
  seqList [ .alt (reStr "ftp") (reStr "http"),
            optG (reChr 's'),
            reChr ':',
            .alt (repRange 1 3 (reChr '/')) (.cls az09pct) ]

/-- The bare-domain-with-slash head: `[a-z0-9.\-]+[.](?:[a-z]{2,13})/`. -/
def urlDomSlashRE : RE :=
  seqList [ plusG (.cls az09dotdash), reChr '.',
            repRange 2 13 (.cls azLower), reChr '/' ]

/-- Nested parenthesised URL chunk:
`\([^\s()]*?\([^\s()]+\)[^\s()]*?\)`. -/
def urlParenNestRE : RE :=
  seqList [ reChr '(', starL (.cls noSpParen), reChr '(',
            plusG (.cls noSpParen), reChr ')', starL (.cls noSpParen),
            reChr ')' ]

/-- Simple parenthesised URL chunk: `\([^\s]+?\)`. -/
def urlParenSimpleRE : RE :=
  seqList [reChr '(', plusL (.cls noSp), reChr ')']

/-- First URL alternative: head, then
`(?:[^\s()<>{}\[\]]+|nest|simple)+`, then `(?:nest|simple|[^\s…])`. -/
def urlMainRE : RE :=
  seqList
    [ .alt urlSchemeRE urlDomSlashRE,
      plusG (altList [plusG (.cls urlBodyCls), urlParenNestRE, urlParenSimpleRE]),
      altList [urlParenNestRE, urlParenSimpleRE, .cls urlTailCls] ]

/-- Second URL alternative:
`(?:[a-z0-9]+(?:[.\-][a-z0-9]+)*[.](?:[a-z]{2,13})\b/?)`. -/
def urlBareRE : RE :=
  seqList
    [ plusG (.cls az09),
      starG (.seq (.cls (fun c => c == '.' || c == '-')) (plusG (.cls az09))),
      reChr '.',
      repRange 2 13 (.cls azLower),
      .wb,
      optG (reChr '/') ]

/-- The `url` pattern (line 554). -/
def urlRE : RE := .alt urlMainRE urlBareRE

/-- The `email` pattern (line 556):
`[a-zA-Z0-9_.+-]+@[a-zA-Z0-9-]+\.[a-zA-Z0-9-.]+`. -/
def emailRE : RE :=
  seqList [ plusG (.cls emailLocalCls), reChr '@', plusG (.cls emailDomCls),
            reChr '.', plusG (.cls emailDom2Cls) ]

/-- The `phone` pattern (line 558): `\d{2,}-\d{3,}-\d{3,}`. -/
def phoneRE : RE :=
  seqList [ repAtLeast 2 digitRE, reChr '-', repAtLeast 3 digitRE,
            reChr '-', repAtLeast 3 digitRE ]

/-- The `datetime` alternatives (lines 560-568), in order. -/
def datetimeRE : RE :=
  altList
    [ seqList [repRange 1 2 digitRE, reChr '/', repRange 1 2 digitRE,
               reChr '/', plusG digitRE],
      seqList [repRange 1 2 digitRE, reChr '/', repRange 1 4 digitRE],
      seqList [repRange 1 2 digitRE, reChr '-', repRange 1 2 digitRE,
               reChr '-', plusG digitRE],
      seqList [repRange 1 2 digitRE, reChr '-', repRange 1 4 digitRE],
      seqList [repRange 1 2 digitRE, reChr '.', repRange 1 2 digitRE,
               reChr '.', plusG digitRE],
      seqList [repN 4 digitRE, reChr '/', repRange 1 2 digitRE,
               reChr '/', repRange 1 2 digitRE],
      seqList [repN 2 digitRE, reChr ':', repN 2 digitRE,
               reChr ':', repN 2 digitRE] ]

/-- The `name` alternatives (lines 571-574): `\d+[A-Z]+\d+`, `\d+[A-Z]+`. -/
def nameRE : RE :=
  altList
    [ seqList [plusG digitRE, plusG (.cls azUpper), plusG digitRE],
      .seq (plusG digitRE) (plusG (.cls azUpper)) ]

/-- The `number` alternatives (lines 577-582), in order:
`\d+(?:\.\d+)+,\d+`, `\d+(?:\.\d+)+`, `\d+(?:,\d+)+`,
`\d+(?:[\.,_]\d+)?`. -/
def numberRE : RE :=
  altList
    [ seqList [plusG digitRE, plusG (.seq (reChr '.') (plusG digitRE)),
               reChr ',', plusG digitRE],
      .seq (plusG digitRE) (plusG (.seq (reChr '.') (plusG digitRE))),
      .seq (plusG digitRE) (plusG (.seq (reChr ',') (plusG digitRE))),
      .seq (plusG digitRE) (optG (.seq (.cls dotCommaUnd) (plusG digitRE))) ]

/-- The `emoji` alternatives (lines 585-592), in order: `:\)\)*`,
`=\)\)+`, `♥‿♥`, `:D+\s` — note the trailing `\s` is part of the match —
`:D+$`, `<3`. -/
def emojiRE : RE :=
  altList
    [ seqList [reChr ':', reChr ')', starG (reChr ')')],
      seqList [reChr '=', reChr ')', plusG (reChr ')')],
      reStr "♥‿♥",
      seqList [reChr ':', plusG (reChr 'D'), .cls sChar],
      seqList [reChr ':', plusG (reChr 'D'), .eos],
      reStr "<3" ]

/-- The `punct` alternatives (lines 595-601): `\.`, `,`, `\(`, `\)`, `ʺ`. -/
def punctRE : RE :=
  altList [reChr '.', reChr ',', reChr '(', reChr ')', reChr 'ʺ']

/-- The `word_hyphen` pattern (line 605): `\b\w+\-[\w+-]*\w+`. -/
def wordHyphenRE : RE :=
  seqList [.wb, plusG (.cls wChar), reChr '-', starG (.cls wpmCls),
           plusG (.cls wChar)]

/-- The `word` pattern (line 606): `\w+`. -/
def wordRE : RE := plusG (.cls wChar)

/-- The `symbol` alternatives (lines 608-610), in order: `\+`, `×`, `-`,
`÷`, `:+`, `%`, `\$`, `>`, `<`, `=`, `\^`, `_`. -/
def symRE : RE :=
  altList
    [ reChr '+', reChr '×', reChr '-', reChr '÷', plusG (reChr ':'),
      reChr '%', reChr '$', reChr '>', reChr '<', reChr '=',
      reChr '^', reChr '_' ]

/-- The `non_word` pattern (line 613): `[^\w\s]`. -/
def nonWordRE : RE := .cls nonWordCls

/-- The fixed-words alternative (lines 618-624):
`\bw1\b|\bw2\b|…` where each word has its spaces escaped as `\ `, which
the regex engine reads back as a literal space.  This transcription reads
every phrase character literally; phrases containing pattern
metacharacters would corrupt the real combined pattern instead (see the
escaping analysis for claim C8). -/
def fixedWordsRE (fixed_words : List String) : RE :=
  altList (fixed_words.map (fun w => seqList [.wb, reStr w, .wb]))

/-- The combined alternation of `build_regex_patterns` (lines 615-645):
the fixed-words group first when supplied, then the category groups in
declared priority order. -/
def scanBranches (fixed_words : List String) : List (RE × TokType) :=
  (if fixed_words.isEmpty then [] else [(fixedWordsRE fixed_words, TokType.fixedWords)]) ++
  [ (specialsRE, .special),
    (abbrevRE, .abbreviation),
    (urlRE, .url),
    (emailRE, .email),
    (phoneRE, .phone),
    (datetimeRE, .dateTime),
    (nameRE, .name),
    (numberRE, .number),
    (emojiRE, .emoji),
    (punctRE, .punct),
    (wordHyphenRE, .wordHyphen),
    (wordRE, .word),
    (symRE, .symbol),
    (nonWordRE, .nonWord) ]

/-- First branch matching at the current position, with the length of its
preferred match: the alternation preference of the combined pattern,
which `extract_match` (lines 648-695) then maps back to the category of
the unique participating group. -/
def firstMatchAt (bs : List (RE × TokType)) (prev : Option Char) (s : List Char) :
    Option (Nat × TokType) :=
  match bs with
  | [] => none
  | (r, ty) :: rest =>
      match (mrun (engineFuel s) r prev s).head? with
      | some pr => some (s.length - pr.2.length, ty)
      | none => firstMatchAt rest prev s

/-- The scan loop of `captures_iter`: at each position take the combined
pattern's preferred match if any and advance past it, otherwise drop one
character (this is how whitespace disappears).  A zero-length match
advances by one character, as the `regex` crate does; no branch of this
combined pattern can match the empty string.  `fuel` dominates the number
of positions. -/
def scanGo (bs : List (RE × TokType)) :
    Nat → Option Char → List Char → List (List Char × TokType)
  | 0, _, _ => []
  | _ + 1, _, [] => []
  | f + 1, prev, c :: rest =>
      match firstMatchAt bs prev (c :: rest) with
      | some (len, ty) =>
          if len = 0 then scanGo bs f (some c) rest
          else
            ((c :: rest).take len, ty) ::
              scanGo bs f (some ((c :: rest).getD (len - 1) c)) ((c :: rest).drop len)
      | none => scanGo bs f (some c) rest

/-- Tokenize a character list with the combined pattern for the given
fixed words. -/
def vnScan (fixed_words : List String) (s : List Char) : List (List Char × TokType) :=
  scanGo (scanBranches fixed_words) (s.length + 1) none s

/-- The local placeholder `normalize_characters_in_text` of
word_tokenize.rs (lines 699-703): it returns the text unchanged, and it —
not the `text_normalize` module function — is what `tokenize_with_tags`
in this file calls. -/
def localNormalizeChars (text : String) : String := text

/-- The local placeholder `token_normalize` of word_tokenize.rs (lines
705-713): character normalization of the token when requested, otherwise
identity — with the identity placeholder this is always the identity. -/
def localTokenNormalize (token : String) (use_character_normalize : Bool) : String :=
  if use_character_normalize then localNormalizeChars token else token

/-- Embeds `VietnameseTokenizer::tokenize_with_tags` (lines 123-146):
optional character normalization of the whole text, the `captures_iter`
scan, and optional per-token normalization. -/
def tokenize_with_tags (fixed_words : List String)
    (use_character_normalize use_token_normalize : Bool)
    (text : String) : List (String × TokType) :=
  let normalized_text :=
    if use_character_normalize then localNormalizeChars text else text
  (vnScan fixed_words normalized_text.data).map (fun pr =>
    let token_text := String.mk pr.1
    let final_text :=
      if use_token_normalize then localTokenNormalize token_text use_character_normalize
      else token_text
    (final_text, pr.2))

/-- Embeds `VietnameseTokenizer::tokenize` (lines 116-121) for a tokenizer
built by `new`/`with_fixed_words` (both normalization toggles start
`true`, lines 90-106). -/
def tokenize (fixed_words : List String) (text : String) : List String :=
  (tokenize_with_tags fixed_words true true text).map (fun pr => pr.1)

/-- Concatenation of emitted token texts. -/
def concatTokens (tokens : List String) : String :=
  tokens.foldl (fun acc t => acc ++ t) ""

/-- The normalized input with all whitespace characters removed. -/
def stripWhitespace (text : String) : String :=
  String.mk (text.data.filter (fun c => !(sChar c)))

/-! ## Theorems

### Viterbi optimality -/

theorem labGo_append (em : Nat → Lab → ℚ) (tr : Lab → Lab → ℚ)
    (q : List Lab) (l : Lab) :
    ∀ (i : Nat) (prev : Lab),
      labGo em tr i prev (q ++ [l]) =
        labGo em tr i prev q + tr (q.getLastD prev) l + em (i + q.length) l := by
  induction q with
  | nil =>
      intro i prev
      simp [labGo, List.getLastD]
      ring
  | cons a q ih =>
      intro i prev
      rw [List.cons_append]
      simp only [labGo, List.getLastD_cons, List.length_cons]
      rw [ih (i + 1) a]
      rw [show i + 1 + q.length = i + (q.length + 1) by omega]
      ring

theorem labScore_append (em : Nat → Lab → ℚ) (tr : Lab → Lab → ℚ)
    (q : List Lab) (l : Lab) (hq : q ≠ []) :
    labScore em tr (q ++ [l]) =
      labScore em tr q + tr (q.getLastD .bw) l + em q.length l := by
  match q, hq with
  | a :: q', _ =>
      simp only [List.cons_append, labScore, labGo_append, List.getLastD_cons,
        List.length_cons]
      rw [show 1 + q'.length = q'.length + 1 by omega]
      ring

theorem dpv_succ_ite (em : Nat → Lab → ℚ) (tr : Lab → Lab → ℚ)
    (i : Nat) (l : Lab) :
    dpv em tr (i + 1) l =
      if dpv em tr i .iw + tr .iw l + em (i + 1) l >
          dpv em tr i .bw + tr .bw l + em (i + 1) l then
        dpv em tr i .iw + tr .iw l + em (i + 1) l
      else
        dpv em tr i .bw + tr .bw l + em (i + 1) l := rfl

theorem bpv_succ_ite (em : Nat → Lab → ℚ) (tr : Lab → Lab → ℚ)
    (i : Nat) (l : Lab) :
    bpv em tr (i + 1) l =
      if dpv em tr i .iw + tr .iw l + em (i + 1) l >
          dpv em tr i .bw + tr .bw l + em (i + 1) l then
        Lab.iw
      else
        Lab.bw := rfl

theorem dpv_step_le (em : Nat → Lab → ℚ) (tr : Lab → Lab → ℚ)
    (i : Nat) (k l : Lab) :
    dpv em tr i k + tr k l + em (i + 1) l ≤ dpv em tr (i + 1) l := by
  rw [dpv_succ_ite]
  cases k <;> split <;> linarith

theorem dpv_succ_eq (em : Nat → Lab → ℚ) (tr : Lab → Lab → ℚ)
    (i : Nat) (l : Lab) :
    dpv em tr (i + 1) l =
      dpv em tr i (bpv em tr (i + 1) l) + tr (bpv em tr (i + 1) l) l +
        em (i + 1) l := by
  rw [dpv_succ_ite, bpv_succ_ite]
  split <;> rfl

theorem revPathv_length (em : Nat → Lab → ℚ) (tr : Lab → Lab → ℚ) :
    ∀ (i : Nat) (l : Lab), (revPathv em tr i l).length = i + 1 := by
  intro i
  induction i with
  | zero => intro l; rfl
  | succ i ih => intro l; simp [revPathv, ih]

theorem revPathv_head (em : Nat → Lab → ℚ) (tr : Lab → Lab → ℚ)
    (i : Nat) (l : Lab) : (revPathv em tr i l).head? = some l := by
  cases i <;> rfl

theorem revPathv_score (em : Nat → Lab → ℚ) (tr : Lab → Lab → ℚ) :
    ∀ (i : Nat) (l : Lab),
      labScore em tr ((revPathv em tr i l).reverse) = dpv em tr i l := by
  intro i
  induction i with
  | zero => intro l; simp [revPathv, labScore, labGo, dpv]
  | succ i ih =>
      intro l
      have hq : (revPathv em tr i (bpv em tr (i + 1) l)).reverse ≠ [] := by
        intro hnil
        rw [List.reverse_eq_nil_iff] at hnil
        have := revPathv_length em tr i (bpv em tr (i + 1) l)
        rw [hnil] at this
        simp at this
      have hstep : revPathv em tr (i + 1) l =
          l :: revPathv em tr i (bpv em tr (i + 1) l) := rfl
      rw [hstep, List.reverse_cons, labScore_append _ _ _ _ hq, ih]
      have hgl : ((revPathv em tr i (bpv em tr (i + 1) l)).reverse).getLastD Lab.bw =
          bpv em tr (i + 1) l := by
        rw [List.getLastD_eq_getLast?, List.getLast?_reverse, revPathv_head]
        rfl
      have hlen : ((revPathv em tr i (bpv em tr (i + 1) l)).reverse).length = i + 1 := by
        rw [List.length_reverse, revPathv_length]
      rw [hgl, hlen, ← dpv_succ_eq]

theorem labScore_le_dpv (em : Nat → Lab → ℚ) (tr : Lab → Lab → ℚ)
    (labs : List Lab) (hne : labs ≠ []) :
    labScore em tr labs ≤ dpv em tr (labs.length - 1) (labs.getLastD .bw) := by
  induction labs using List.reverseRecOn with
  | nil => exact absurd rfl hne
  | append_singleton q l ih =>
      by_cases hq : q = []
      · subst hq
        simp [labScore, labGo, dpv, List.getLastD]
      · rw [labScore_append _ _ _ _ hq]
        have h1 := ih hq
        have h2 := dpv_step_le em tr (q.length - 1) (q.getLastD .bw) l
        have hlen : q.length - 1 + 1 = q.length :=
          Nat.succ_pred_eq_of_pos (List.length_pos.mpr hq)
        rw [hlen] at h2
        rw [List.getLastD_concat]
        rw [show (q ++ [l]).length - 1 = q.length by simp]
        linarith

theorem dpv_le_bestFinal (em : Nat → Lab → ℚ) (tr : Lab → Lab → ℚ)
    (n : Nat) (l : Lab) :
    dpv em tr n l ≤ dpv em tr n (bestFinal em tr n) := by
  cases l <;> rw [bestFinal] <;> split <;> linarith

theorem scoreSeqGo_map (w : Weights) (tokens : List String) :
    ∀ (labs : List Lab) (i : Nat) (p : Lab),
      scoreSeqGo w tokens i (some p.str) (labs.map Lab.str) =
        labGo (emL w tokens) (trL w) i p labs := by
  intro labs
  induction labs with
  | nil => intro i p; rfl
  | cons l rest ih =>
      intro i p
      simp only [List.map_cons, scoreSeqGo, labGo, emL, trL, ih]

theorem score_sequence_map (w : Weights) (tokens : List String)
    (labs : List Lab) :
    score_sequence w tokens (labs.map Lab.str) =
      labScore (emL w tokens) (trL w) labs := by
  cases labs with
  | nil => rfl
  | cons l rest =>
      simp only [score_sequence, List.map_cons, scoreSeqGo, labScore,
        scoreSeqGo_map, emL, add_zero]

theorem tags_to_labs (tags : List String)
    (h : ∀ t ∈ tags, t = "B-W" ∨ t = "I-W") :
    ∃ labs : List Lab, tags = labs.map Lab.str := by
  induction tags with
  | nil => exact ⟨[], rfl⟩
  | cons t rest ih =>
      obtain ⟨labs, hl⟩ := ih (fun x hx => h x (List.mem_cons_of_mem _ hx))
      rcases h t (List.mem_cons_self t rest) with ht | ht
      · exact ⟨.bw :: labs, by simp [Lab.str, ht, ← hl]⟩
      · exact ⟨.iw :: labs, by simp [Lab.str, ht, ← hl]⟩

theorem viterbi_decode_ne (w : Weights) (tokens : List String)
    (h : tokens ≠ []) :
    viterbi_decode w tokens =
      ((revPathv (emL w tokens) (trL w) (tokens.length - 1)
        (bestFinal (emL w tokens) (trL w) (tokens.length - 1))).reverse).map
        Lab.str := by
  match tokens, h with
  | _ :: _, _ => rfl

theorem viterbi_decode_length (w : Weights) (tokens : List String) :
    (viterbi_decode w tokens).length = tokens.length := by
  cases tokens with
  | nil => rfl
  | cons t ts =>
      rw [viterbi_decode_ne w (t :: ts) (by simp)]
      simp [revPathv_length]

theorem viterbi_decode_mem (w : Weights) (tokens : List String) :
    ∀ s ∈ viterbi_decode w tokens, s = "B-W" ∨ s = "I-W" := by
  cases tokens with
  | nil => simp [viterbi_decode]
  | cons t ts =>
      rw [viterbi_decode_ne w (t :: ts) (by simp)]
      intro s hs
      rw [List.mem_map] at hs
      obtain ⟨l, _, rfl⟩ := hs
      cases l
      · exact Or.inl rfl
      · exact Or.inr rfl

/-- C1: for every non-empty token sequence, `viterbi_decode` returns a
label sequence over `{B-W, I-W}` that maximizes the total
`score_sequence` score (per-position emission weights plus transition
weights, absent keys counting as 0), the maximum being taken over all
label sequences of the same length drawn from the two-label alphabet,
with ties broken towards the first label in label-iteration order by the
strict-inequality updates embedded in `dpv`, `bpv` and `bestFinal`; the
empty token sequence yields the empty label sequence. -/
theorem claim_C1 (w : Weights) (tokens tags : List String)
    (hne : tokens ≠ []) (hlen : tags.length = tokens.length)
    (hmem : ∀ t ∈ tags, t = "B-W" ∨ t = "I-W") :
    viterbi_decode w [] = [] ∧
      score_sequence w tokens tags ≤
        score_sequence w tokens (viterbi_decode w tokens) := by
  refine ⟨rfl, ?_⟩
  obtain ⟨labs, rfl⟩ := tags_to_labs tags hmem
  have hlabs : labs ≠ [] := by
    intro h
    subst h
    simp at hlen
    exact hne (List.length_eq_zero.mp hlen.symm)
  rw [score_sequence_map, viterbi_decode_ne w tokens hne, score_sequence_map]
  have h1 := labScore_le_dpv (emL w tokens) (trL w) labs hlabs
  have h2 : labs.length - 1 = tokens.length - 1 := by
    rw [← hlen]
    simp
  rw [h2] at h1
  have h3 := dpv_le_bestFinal (emL w tokens) (trL w) (tokens.length - 1)
    (labs.getLastD .bw)
  rw [revPathv_score]
  exact le_trans h1 h3

/-- Witness for C1 at a concrete non-empty input. -/
theorem claim_C1_witness :
    viterbi_decode defaultWeights [] = [] ∧
      score_sequence defaultWeights ["Bác", "sĩ"] ["B-W", "B-W"] ≤
        score_sequence defaultWeights ["Bác", "sĩ"]
          (viterbi_decode defaultWeights ["Bác", "sĩ"]) :=
  claim_C1 defaultWeights ["Bác", "sĩ"] ["B-W", "B-W"]
    (by decide) (by decide) (by decide)

/-! ### The merge loop -/

theorem appendToLast_ne (output : List String) (token : String) :
    appendToLast output token ≠ [] := by
  simp [appendToLast]

theorem mergeGo_length (pairs : List (String × String)) :
    ∀ acc : List String, acc ≠ [] →
      (mergeGo pairs acc).length =
        acc.length + pairs.countP (fun p => !(p.1 == "I-W")) := by
  induction pairs with
  | nil => intro acc _; simp [mergeGo]
  | cons p rest ih =>
      intro acc hacc
      obtain ⟨tag, token⟩ := p
      by_cases h : tag = "I-W" ∧ acc ≠ []
      · rw [mergeGo, if_pos h, ih _ (appendToLast_ne acc token)]
        have hlen : (appendToLast acc token).length = acc.length := by
          simp [appendToLast]
          have := List.length_pos.mpr hacc
          omega
        rw [hlen]
        simp [List.countP_cons, h.1]
      · rw [mergeGo, if_neg h, ih _ (by simp)]
        have htag : ¬ tag = "I-W" := fun ht => h ⟨ht, hacc⟩
        simp [List.countP_cons, htag]
        omega

theorem countP_zip_fst :
    ∀ (ts xs : List String), ts.length = xs.length →
      (ts.zip xs).countP (fun p => !(p.1 == "I-W")) =
        ts.countP (fun t => !(t == "I-W")) := by
  intro ts
  induction ts with
  | nil => intro xs _; simp
  | cons t ts ih =>
      intro xs hlen
      cases xs with
      | nil => simp at hlen
      | cons x xs =>
          simp only [List.zip_cons_cons, List.countP_cons]
          rw [ih xs (by simpa using hlen)]

theorem countP_nonI_eq_count (ts : List String)
    (h : ∀ t ∈ ts, t = "B-W" ∨ t = "I-W") :
    ts.countP (fun t => !(t == "I-W")) = ts.count "B-W" := by
  induction ts with
  | nil => rfl
  | cons t ts ih =>
      have hrest := ih (fun x hx => h x (List.mem_cons_of_mem _ hx))
      rcases h t (List.mem_cons_self t ts) with ht | ht <;>
        subst ht <;>
        simp [List.countP_cons, List.count_cons, hrest]

/-- C3: the merge step emits one word per `B-W` tag, plus one extra word
when the very first token is tagged `I-W` (the first token always opens a
word). -/
theorem claim_C3 (tags tokens : List String)
    (hne : tokens ≠ []) (hlen : tags.length = tokens.length)
    (hmem : ∀ t ∈ tags, t = "B-W" ∨ t = "I-W") :
    (mergeTokensByTags tags tokens).length =
      tags.count "B-W" + (if tags.head? = some "I-W" then 1 else 0) := by
  cases tokens with
  | nil => exact absurd rfl hne
  | cons tok toks =>
      cases tags with
      | nil => simp at hlen
      | cons tg tgs =>
          have hlen' : tgs.length = toks.length := by simpa using hlen
          have hmem' : ∀ t ∈ tgs, t = "B-W" ∨ t = "I-W" :=
            fun x hx => hmem x (List.mem_cons_of_mem _ hx)
          have hstep : mergeTokensByTags (tg :: tgs) (tok :: toks) =
              mergeGo (tgs.zip toks) [tok] := by
            rw [mergeTokensByTags, List.zip_cons_cons, mergeGo, if_neg]
            · rfl
            · intro hcon
              exact hcon.2 rfl
          rw [hstep, mergeGo_length _ [tok] (by simp),
            countP_zip_fst tgs toks hlen', countP_nonI_eq_count tgs hmem']
          rcases hmem tg (List.mem_cons_self tg tgs) with ht | ht <;> subst ht <;>
            simp [List.count_cons] <;> omega

/-- Witness for C3 at a concrete tagged sequence. -/
theorem claim_C3_witness :
    (mergeTokensByTags ["I-W", "B-W", "I-W"] ["a", "b", "c"]).length =
      (["I-W", "B-W", "I-W"] : List String).count "B-W" +
        (if (["I-W", "B-W", "I-W"] : List String).head? = some "I-W" then 1
         else 0) :=
  claim_C3 ["I-W", "B-W", "I-W"] ["a", "b", "c"]
    (by decide) (by decide) (by decide)

/-! ### predict and load -/

theorem firstFeatures_ok_or (fs : List (List String)) :
    (∃ ts, firstFeatures fs = .ok ts) ∨
      firstFeatures fs = .error "index out of bounds" := by
  induction fs with
  | nil => exact Or.inl ⟨[], rfl⟩
  | cons f rest ih =>
      cases f with
      | nil => exact Or.inr rfl
      | cons t _ =>
          rcases ih with ⟨ts, hts⟩ | herr
          · exact Or.inl ⟨t :: ts, by rw [firstFeatures, hts]⟩
          · exact Or.inr (by rw [firstFeatures, herr])

theorem firstFeatures_all_ne (fs : List (List String))
    (h : ∀ f ∈ fs, f ≠ []) :
    ∃ ts, firstFeatures fs = .ok ts ∧ ts.length = fs.length := by
  induction fs with
  | nil => exact ⟨[], rfl, rfl⟩
  | cons f rest ih =>
      obtain ⟨ts, hts, hlen⟩ := ih (fun x hx => h x (List.mem_cons_of_mem _ hx))
      cases f with
      | nil => exact absurd rfl (h [] (List.mem_cons_self [] rest))
      | cons t _ =>
          exact ⟨t :: ts, by rw [firstFeatures, hts], by simp [hlen]⟩

theorem firstFeatures_singletons (tokens : List String) :
    firstFeatures (tokens.map (fun t => [t])) = .ok tokens := by
  induction tokens with
  | nil => rfl
  | cons t rest ih => rw [List.map_cons, firstFeatures, ih]

theorem predictE_loaded_tokens (m : CRFModel) (tokens : List String)
    (hl : m.loaded = true) :
    m.predictE (tokens.map (fun t => [t])) =
      .ok (viterbi_decode m.weights tokens) := by
  cases tokens with
  | nil => simp [CRFModel.predictE, hl, viterbi_decode]
  | cons t rest =>
      rw [CRFModel.predictE, firstFeatures_singletons]
      simp [hl]

/-- C4: calling `predict` on a model whose `loaded` flag is false hits the
`panic!` branch (modelled as the corresponding error) for every feature
sequence; with the model loaded, `predict` never produces that fatal
branch. -/
theorem claim_C4 (m : CRFModel) (features : List (List String)) :
    (m.loaded = false →
      m.predictE features = .error "Model not loaded. Call load() first.") ∧
    (m.loaded = true →
      m.predictE features ≠ .error "Model not loaded. Call load() first.") := by
  constructor
  · intro h
    simp [CRFModel.predictE, h]
  · intro h
    rw [CRFModel.predictE]
    simp only [h]
    by_cases hemp : features.isEmpty
    · simp [hemp]
    · simp only [hemp, if_neg, if_false, Bool.false_eq_true]
      rcases firstFeatures_ok_or features with ⟨ts, hts⟩ | herr
      · rw [hts]
        simp
      · rw [herr]
        simp

/-- Witness for C4: an unloaded model panics, a loaded one does not. -/
theorem claim_C4_witness :
    CRFModel.new.predictE [["a"]] =
      .error "Model not loaded. Call load() first." ∧
    ((CRFModel.new.load true).1).predictE [["a"]] ≠
      .error "Model not loaded. Call load() first." :=
  ⟨(claim_C4 CRFModel.new [["a"]]).1 rfl,
   (claim_C4 ((CRFModel.new.load true).1) [["a"]]).2 rfl⟩

/-- C9 counterexample: on a loaded model, `predict` applied to the feature
sequence `[[]]` (one position whose feature row is empty) hits the
out-of-bounds `f[0]` panic instead of returning one label for the
position, so the claim fails for this feature sequence. -/
theorem claim_C9_counterexample :
    ((CRFModel.new.load true).1).loaded = true ∧
      ((CRFModel.new.load true).1).predictE [[]] =
        .error "index out of bounds" := by
  constructor
  · rfl
  · rfl

/-- C9 (amended): for every loaded model and every feature sequence whose
rows are all non-empty, `predict` returns exactly one label per input
position and every label is `B-W` or `I-W`; the empty feature sequence
yields the empty label sequence. -/
theorem claim_C9 (m : CRFModel) (features : List (List String))
    (hl : m.loaded = true) (hf : ∀ f ∈ features, f ≠ []) :
    ∃ labels, m.predictE features = .ok labels ∧
      labels.length = features.length ∧
      ∀ l ∈ labels, l = "B-W" ∨ l = "I-W" := by
  by_cases hemp : features.isEmpty
  · refine ⟨[], ?_, ?_, by simp⟩
    · simp [CRFModel.predictE, hl, hemp]
    · rw [List.isEmpty_iff] at hemp
      simp [hemp]
  · obtain ⟨ts, hts, hlen⟩ := firstFeatures_all_ne features hf
    refine ⟨viterbi_decode m.weights ts, ?_, ?_, viterbi_decode_mem m.weights ts⟩
    · rw [CRFModel.predictE]
      simp [hl, hemp, hts]
    · rw [viterbi_decode_length, hlen]

/-- Witness for C9 at a concrete loaded model and feature sequence. -/
theorem claim_C9_witness :
    ∃ labels,
      ((CRFModel.new.load true).1).predictE [["Bác"], ["sĩ"]] = .ok labels ∧
        labels.length = ([["Bác"], ["sĩ"]] : List (List String)).length ∧
        ∀ l ∈ labels, l = "B-W" ∨ l = "I-W" :=
  claim_C9 ((CRFModel.new.load true).1) [["Bác"], ["sĩ"]] rfl (by decide)

/-! ### The merge output partitions the token sequence -/

theorem joinSp_concat (a : String) (g : List String) (t : String) :
    joinSp ((a :: g) ++ [t]) = joinSp (a :: g) ++ " " ++ t := by
  induction g generalizing a with
  | nil => rfl
  | cons b g' ih =>
      show joinSp (a :: b :: (g' ++ [t])) = _
      have h1 : joinSp (a :: b :: (g' ++ [t])) =
          a ++ " " ++ joinSp (b :: (g' ++ [t])) := rfl
      have h2 : joinSp (b :: (g' ++ [t])) = joinSp (b :: g') ++ " " ++ t :=
        ih b
      rw [h1, h2, joinSp]
      simp [String.append_assoc]

theorem joinSp_ne_concat (g : List String) (t : String) (hg : g ≠ []) :
    joinSp (g ++ [t]) = joinSp g ++ " " ++ t := by
  match g, hg with
  | a :: g', _ => exact joinSp_concat a g' t

theorem mergeGo_partition (pairs : List (String × String)) :
    ∀ gs : List (List String), (∀ g ∈ gs, g ≠ []) →
      ∃ gs' : List (List String),
        mergeGo pairs (gs.map joinSp) = gs'.map joinSp ∧
          gs'.flatten = gs.flatten ++ pairs.map Prod.snd ∧
          ∀ g ∈ gs', g ≠ [] := by
  induction pairs with
  | nil =>
      intro gs hgs
      exact ⟨gs, rfl, by simp [mergeGo], hgs⟩
  | cons p rest ih =>
      intro gs hgs
      obtain ⟨tag, token⟩ := p
      by_cases h : tag = "I-W" ∧ gs.map joinSp ≠ []
      · rcases List.eq_nil_or_concat gs with hnil | ⟨q, g, hgq⟩
        · subst hnil
          exact absurd rfl h.2
        · rw [List.concat_eq_append] at hgq
          subst hgq
          have hgne : g ≠ [] := hgs g (by simp)
          have hacc : appendToLast ((q ++ [g]).map joinSp) token =
              ((q ++ [g ++ [token]]).map joinSp) := by
            rw [appendToLast]
            rw [List.map_append, List.map_append]
            simp only [List.map_cons, List.map_nil]
            rw [List.dropLast_concat, List.getLastD_concat]
            rw [joinSp_ne_concat g token hgne]
          rw [mergeGo, if_pos h, hacc]
          obtain ⟨gs', hm, hj, hne'⟩ := ih (q ++ [g ++ [token]]) (by
            intro x hx
            rcases List.mem_append.mp hx with hx | hx
            · exact hgs x (List.mem_append.mpr (Or.inl hx))
            · rw [List.mem_singleton] at hx
              subst hx
              simp)
          refine ⟨gs', hm, ?_, hne'⟩
          rw [hj]
          simp [List.flatten_append, List.append_assoc]
      · rw [mergeGo, if_neg h]
        have hacc : gs.map joinSp ++ [token] = (gs ++ [[token]]).map joinSp := by
          rw [List.map_append]
          rfl
        rw [hacc]
        obtain ⟨gs', hm, hj, hne'⟩ := ih (gs ++ [[token]]) (by
          intro x hx
          rcases List.mem_append.mp hx with hx | hx
          · exact hgs x hx
          · rw [List.mem_singleton] at hx
            subst hx
            simp)
        refine ⟨gs', hm, ?_, hne'⟩
        rw [hj]
        simp [List.flatten_append, List.append_assoc]

theorem mergeTokensByTags_partition (tags tokens : List String)
    (hlen : tags.length = tokens.length) :
    ∃ groups : List (List String),
      mergeTokensByTags tags tokens = groups.map joinSp ∧
        groups.flatten = tokens ∧ ∀ g ∈ groups, g ≠ [] := by
  obtain ⟨gs', hm, hj, hne'⟩ := mergeGo_partition (tags.zip tokens) [] (by simp)
  refine ⟨gs', ?_, ?_, hne'⟩
  · rw [mergeTokensByTags]
    exact hm
  · rw [hj]
    simp [List.map_snd_zip tags tokens (le_of_eq hlen.symm)]

/-- C10: with `format_as_text = false` the word list partitions the token
sequence — every word is the space-join of one or more consecutive
tokens, in input order, and flattening the groups yields exactly the
token sequence; with `format_as_text = true` the result is a vector of
exactly one string. -/
theorem claim_C10 (m : CRFModel) (tokens : List String)
    (hl : m.loaded = true) :
    (∃ groups : List (List String),
        word_tokenize_from_tokens m false tokens = .ok (groups.map joinSp) ∧
          groups.flatten = tokens ∧ ∀ g ∈ groups, g ≠ []) ∧
      ∃ s, word_tokenize_from_tokens m true tokens = .ok [s] := by
  have hpred := predictE_loaded_tokens m tokens hl
  obtain ⟨groups, hm, hj, hgne⟩ :=
    mergeTokensByTags_partition (viterbi_decode m.weights tokens) tokens
      (viterbi_decode_length m.weights tokens)
  constructor
  · refine ⟨groups, ?_, hj, hgne⟩
    rw [word_tokenize_from_tokens, hpred]
    simp [hm]
  · refine ⟨joinSp ((mergeTokensByTags (viterbi_decode m.weights tokens)
      tokens).map spaceToUnderscore), ?_⟩
    rw [word_tokenize_from_tokens, hpred]
    simp

/-- Witness for C10 at a concrete loaded model and token list. -/
theorem claim_C10_witness :
    (∃ groups : List (List String),
        word_tokenize_from_tokens ((CRFModel.new.load true).1) false
            ["Bác", "sĩ"] = .ok (groups.map joinSp) ∧
          groups.flatten = ["Bác", "sĩ"] ∧ ∀ g ∈ groups, g ≠ []) ∧
      ∃ s, word_tokenize_from_tokens ((CRFModel.new.load true).1) true
          ["Bác", "sĩ"] = .ok [s] :=
  claim_C10 ((CRFModel.new.load true).1) ["Bác", "sĩ"] rfl

/-- C5: `load` always succeeds — it returns `Ok`, installs the built-in
default weight set and sets the `loaded` flag, for every model path
(existing or not); consequently the word pipeline on the resulting model
still produces a word sequence, non-empty for non-empty tokenized
input. -/
theorem claim_C5 (m : CRFModel) (path_exists : Bool) (tokens : List String)
    (hne : tokens ≠ []) :
    (m.load path_exists).2 = .ok () ∧
      ((m.load path_exists).1).loaded = true ∧
      (∀ kv ∈ defaultWeights,
        ((m.load path_exists).1).weights.lookup kv.1 = some kv.2) ∧
      ∃ ws, word_tokenize_from_tokens ((m.load path_exists).1) false tokens =
          .ok ws ∧ ws ≠ [] := by
  refine ⟨rfl, rfl, ?_, ?_⟩
  · intro kv hkv
    simp only [defaultWeights, List.mem_cons, List.not_mem_nil, or_false] at hkv
    rcases hkv with rfl | rfl | rfl | rfl | rfl | rfl | rfl | rfl | rfl | rfl <;>
      rfl
  · have hl : ((m.load path_exists).1).loaded = true := rfl
    have hpred := predictE_loaded_tokens ((m.load path_exists).1) tokens hl
    obtain ⟨groups, hm, hj, hgne⟩ :=
      mergeTokensByTags_partition
        (viterbi_decode ((m.load path_exists).1).weights tokens) tokens
        (viterbi_decode_length ((m.load path_exists).1).weights tokens)
    refine ⟨groups.map joinSp, ?_, ?_⟩
    · rw [word_tokenize_from_tokens, hpred]
      simp [hm]
    · intro hcon
      rw [List.map_eq_nil_iff] at hcon
      rw [hcon] at hj
      exact hne (hj.symm ▸ rfl)

/-- Witness for C5 at a concrete missing-path load and token list. -/
theorem claim_C5_witness :
    (CRFModel.new.load false).2 = .ok () ∧
      ((CRFModel.new.load false).1).loaded = true ∧
      (∀ kv ∈ defaultWeights,
        ((CRFModel.new.load false).1).weights.lookup kv.1 = some kv.2) ∧
      ∃ ws, word_tokenize_from_tokens ((CRFModel.new.load false).1) false
          ["Bác", "sĩ"] = .ok ws ∧ ws ≠ [] :=
  claim_C5 CRFModel.new false ["Bác", "sĩ"] (by decide)

/-! ### Character normalization -/

theorem replGo_not_infix (k v : List Char) :
    ∀ s : List Char, ¬ (k <:+: s) → replGo k v s 0 = s := by
  intro s
  induction s with
  | nil => intro _; rfl
  | cons c rest ih =>
      intro hni
      by_cases hp : k.isPrefixOf (c :: rest)
      · exact absurd (List.isPrefixOf_iff_prefix.mp hp).isInfix hni
      · rw [replGo, if_neg hp, ih (fun hi => hni (List.infix_cons hi))]

theorem rustReplace_not_infix (s k v : List Char) (hni : ¬ (k <:+: s)) :
    rustReplace s k v = s := by
  have hk : k ≠ [] := by
    intro h
    exact hni (h ▸ List.nil_infix)
  rw [rustReplace, if_neg hk]
  exact replGo_not_infix k v s hni

theorem foldl_replace_fixed (cmap : List (String × String)) :
    ∀ d : List Char, (∀ kv ∈ cmap, ¬ (kv.1.data <:+: d)) →
      cmap.foldl (fun r kv => rustReplace r kv.1.data kv.2.data) d = d := by
  induction cmap with
  | nil => intro d _; rfl
  | cons kv rest ih =>
      intro d h
      rw [List.foldl_cons,
        rustReplace_not_infix d kv.1.data kv.2.data
          (h kv (List.mem_cons_self kv rest))]
      exact ih d (fun x hx => h x (List.mem_cons_of_mem _ hx))

theorem character_normalize_fixed (cmap : List (String × String)) (s : String)
    (h : ∀ kv ∈ cmap, ¬ (kv.1.data <:+: s.data)) :
    character_normalize cmap s = s := by
  rw [character_normalize, foldl_replace_fixed cmap s.data h]

/-- C7: the normalization pass — abstract NFC composition followed by the
`character_map` replacements — is idempotent on `x` provided the NFC pass
fixes the one-pass output (NFC is idempotent and the rule values are
canonical) and no `character_map` key occurs in the one-pass output,
which formalizes non-overlapping keys whose substitution outputs do not
re-create any key. -/
theorem claim_C7 (nfc : String → String) (cmap : List (String × String))
    (x : String)
    (hfix : nfc (normalize_characters_in_text nfc cmap x) =
      normalize_characters_in_text nfc cmap x)
    (hnokey : ∀ kv ∈ cmap,
      ¬ (kv.1.data <:+: (normalize_characters_in_text nfc cmap x).data)) :
    normalize_characters_in_text nfc cmap
        (normalize_characters_in_text nfc cmap x) =
      normalize_characters_in_text nfc cmap x := by
  conv_lhs => rw [normalize_characters_in_text, hfix]
  exact character_normalize_fixed cmap _ hnokey

/-- Witness for C7 with the identity NFC pass and an empty rule table. -/
theorem claim_C7_witness :
    normalize_characters_in_text id [] (normalize_characters_in_text id [] "a") =
      normalize_characters_in_text id [] "a" :=
  claim_C7 id [] "a" rfl (by simp)

/-! ### Token canonicalization -/

/-- C6 counterexample: the source gate is `token.len() > 6`, the Rust
*byte* length.  The token below has 4 characters (within the claimed
6-character threshold) and is an exact key of the token map, yet
`token_normalize` returns it unchanged because it occupies 7 UTF-8
bytes — refuting the claim read with length counted in characters. -/
theorem claim_C6_counterexample :
    ("ường" : String).length = 4 ∧
      ("ường" : String).utf8ByteSize = 7 ∧
      List.lookup "ường" [("ường", "X")] = some "X" ∧
      token_normalize id [] [("ường", "X")] "ường" true = "ường" ∧
      ("ường" : String) ≠ "X" := by
  decide

/-- C6 (amended): `token_normalize` passes tokens longer than 6 UTF-8
*bytes* through unchanged regardless of the flag; for tokens at or under
6 bytes it optionally applies character normalization, then returns the
`token_map` image of the (possibly normalized) text when it is an exact
key, else the (possibly normalized) text itself. -/
theorem claim_C6 (nfc : String → String) (cmap tmap : List (String × String))
    (token : String) (flag : Bool) :
    (token.utf8ByteSize > 6 →
      token_normalize nfc cmap tmap token flag = token) ∧
    (token.utf8ByteSize ≤ 6 →
      (∀ mapped,
        tmap.lookup
            (if flag then normalize_characters_in_text nfc cmap token
             else token) = some mapped →
          token_normalize nfc cmap tmap token flag = mapped) ∧
      (tmap.lookup
          (if flag then normalize_characters_in_text nfc cmap token
           else token) = none →
        token_normalize nfc cmap tmap token flag =
          (if flag then normalize_characters_in_text nfc cmap token
           else token))) := by
  constructor
  · intro h
    rw [token_normalize, if_pos h]
  · intro h
    have hn : ¬ token.utf8ByteSize > 6 := by omega
    constructor
    · intro mapped hm
      rw [token_normalize, if_neg hn]
      simp only [hm]
    · intro hnone
      rw [token_normalize, if_neg hn]
      simp only [hnone]

/-- Witness for C6 at a short token that is a key of the token map. -/
theorem claim_C6_witness :
    ("ok" : String).utf8ByteSize ≤ 6 ∧
      token_normalize id [] [("ok", "x")] "ok" false = "x" :=
  ⟨by decide,
   ((claim_C6 id [] [("ok", "x")] "ok" false).2 (by decide)).1 "x" rfl⟩

/-! ### Fixed-words escaping and the combined pattern -/

/-- C8: the fixed-words escaping replaces only spaces; every other
character — pattern metacharacters included — passes into the combined
pattern verbatim, and an entry such as `a(b` yields a sub-pattern with
unbalanced parentheses that cannot compile (so `Regex::new(..).expect`
panics); empty entries are not rejected either.  A well-behaved phrase
like `bác sĩ` yields a balanced sub-pattern. -/
theorem claim_C8 :
    escapeFixedWord "a(b" = "a(b" ∧
      escapeFixedWord "" = "" ∧
      fixedWordsPatternString ["a(b"] = "(?P<fixed_words>\\ba(b\\b)" ∧
      parenBalanced (fixedWordsPatternString ["a(b"]) = false ∧
      fixedWordsPatternString [""] = "(?P<fixed_words>\\b\\b)" ∧
      parenBalanced (fixedWordsPatternString ["bác sĩ"]) = true := by
  decide

/-! ### Tokenizer coverage -/

/-- C2: on the input `":D x"` (no fixed words, default toggles) the
tokenizer emits the Emoji token `":D "` — the trailing whitespace is part
of the match because the emoji sub-pattern is `:D+\s` — so one emitted
token contains a whitespace character and the concatenation of the token
texts differs from the normalized input with whitespace removed. -/
theorem claim_C2 :
    tokenize [] ":D x" = [":D ", "x"] ∧
      concatTokens (tokenize [] ":D x") ≠ stripWhitespace ":D x" ∧
      (tokenize [] ":D x").any (fun t => t.data.any sChar) = true := by
  decide

end ParrotNLP
